import Mathlib

/-
Verification of retain-rs, an encrypted incremental backup agent.

This file gives a shallow embedding of the claim-relevant parts of the
source tree:

  * `src/encryption/mod.rs`    — constants and `get_nonces_required`
  * `src/encryption/reader.rs` — `EncryptingReader` (byte stream it emits)
  * `src/encryption/writer.rs` — `DecryptingWriter` (bytes it writes out)
  * `src/config.rs`            — the nonce ledger (`consume_nonces`, reload)
  * `src/manifest.rs`          — `FileManifest` operations
  * `src/filelist.rs`          — `build_file_list`
  * `src/subcommands/backup/{upload,download}.rs` — per-object retry loops

Bytes are modelled as `Nat`, byte strings as `List Nat`.  The AEAD cipher
(XChaCha20Poly1305, an external crate) is abstracted as a pair of functions
`enc`/`dec` together with the hypotheses that encryption adds a 16-byte tag
and that decryption inverts encryption under the same nonce; everything the
repository itself implements (framing, padding, nonce bookkeeping) is
translated from the source.
-/

namespace RetainRs

/-! ### Constants from `src/encryption/mod.rs` -/

/-- `pub const BLOCK_LENGTH: usize = 8192;` -/
def BLOCK_LENGTH : Nat := 8192

/-- `pub const DATA_LENGTH: usize = BLOCK_LENGTH-16;` -/
def DATA_LENGTH : Nat := BLOCK_LENGTH - 16

/-- `get_nonces_required(length) = (length+3)/(BLOCK_LENGTH-16)+1`
(`src/encryption/mod.rs`, line 39). -/
def get_nonces_required (length : Nat) : Nat :=
  (length + 3) / (BLOCK_LENGTH - 16) + 1

/-! ### Big-endian byte serialization (`u128::to_be_bytes`, `u32::to_be_bytes`,
`u128::from_be_bytes`, `u32::from_be_bytes`) -/

/-- Big-endian byte representation of `n` in `w` bytes (`to_be_bytes`). -/
def beBytes : Nat → Nat → List Nat
  | 0, _ => []
  | w + 1, n => beBytes w (n / 256) ++ [n % 256]

/-- Value of a big-endian byte string (`from_be_bytes`). -/
def beVal : List Nat → Nat
  | [] => 0
  | b :: t => b * 256 ^ t.length + beVal t

theorem beBytes_length (w n : Nat) : (beBytes w n).length = w := by
  induction w generalizing n with
  | zero => rfl
  | succ w ih => simp [beBytes, ih]

theorem beVal_append (l₁ l₂ : List Nat) :
    beVal (l₁ ++ l₂) = beVal l₁ * 256 ^ l₂.length + beVal l₂ := by
  induction l₁ with
  | nil => simp [beVal]
  | cons b t ih => simp [beVal, ih, List.length_append, pow_add]; ring

theorem beVal_beBytes (w n : Nat) (h : n < 256 ^ w) : beVal (beBytes w n) = n := by
  induction w generalizing n with
  | zero => interval_cases n; rfl
  | succ w ih =>
    have hdiv : n / 256 < 256 ^ w := by
      rw [Nat.div_lt_iff_lt_mul (by norm_num)]
      calc n < 256 ^ (w + 1) := h
        _ = 256 ^ w * 256 := by ring
    simp only [beBytes, beVal_append, ih (n / 256) hdiv, beVal, List.length_cons,
      List.length_nil, pow_one, pow_zero, mul_one]
    omega

/-! ### `EncryptingReader` (`src/encryption/reader.rs`)

The reader is a state machine (`Nonce → Data → Pad → Done`) that, over the
course of repeated `read` calls, emits one fixed byte stream: the 16-byte
big-endian start nonce followed by one `BLOCK_LENGTH` ciphertext frame per
consumed chunk.  `encFrames enc nonce p` is the frame part of that stream
for remaining plaintext `p`:

  * `Data` state: while a full `DATA_LENGTH` chunk can be read, encrypt it
    and move to the next nonce;
  * `Pad` state, `pad = DATA_LENGTH - read ≥ 4`: zero-fill up to the last
    four bytes, which hold `be32(pad + pad_extra)`;
  * `Pad` state, `pad < 4`: zero-pad this frame, then emit one extra frame
    whose plaintext is all zeroes except the final `be32(DATA_LENGTH+pad)`.

`enc n m` stands for `aead.encrypt(nonce_from_u128 n, m)` (the nonce is the
8-zero-byte prefix of `be128 n`, so `n ↦ nonce` is injective). -/

def encFrames (enc : Nat → List Nat → List Nat) (nonce : Nat) (p : List Nat) :
    List Nat :=
  if h : DATA_LENGTH ≤ p.length then
    enc nonce (p.take DATA_LENGTH) ++ encFrames enc (nonce + 1) (p.drop DATA_LENGTH)
  else
    let pad := DATA_LENGTH - p.length
    if pad < 4 then
      enc nonce (p ++ List.replicate pad 0) ++
        enc (nonce + 1) (List.replicate (DATA_LENGTH - 4) 0 ++ beBytes 4 (DATA_LENGTH + pad))
    else
      enc nonce (p ++ List.replicate (pad - 4) 0 ++ beBytes 4 pad)
termination_by p.length
decreasing_by
  simp only [List.length_drop]
  have : 0 < DATA_LENGTH := by norm_num [DATA_LENGTH, BLOCK_LENGTH]
  omega

/-- The complete byte stream of the encrypting reader: the `Nonce` state
emits `nonce.to_be_bytes()` (16 bytes), then the frames. -/
def encryptStream (enc : Nat → List Nat → List Nat) (startNonce : Nat)
    (p : List Nat) : List Nat :=
  beBytes 16 startNonce ++ encFrames enc startNonce p

/-! ### `DecryptingWriter` (`src/encryption/writer.rs`)

The writer buffers up to three frames; whenever the buffer is full it
decrypts and emits the oldest frame.  On the terminating zero-length write
it requires the residue to be exactly one or two frames and un-pads
according to the `pad_amount` in the final four plaintext bytes.  Feeding a
whole ciphertext `c` (after the 16-byte nonce header) followed by one
zero-length write therefore emits `decFrames dec nonce c`; `none` models a
panic (`expect` on decryption failure, wrong residue size) and the Rust
`usize` subtraction overflow panic when `pad_amount` exceeds the frame. -/

def decFrames (dec : Nat → List Nat → Option (List Nat)) (nonce : Nat)
    (c : List Nat) : Option (List Nat) :=
  if h : 2 * BLOCK_LENGTH < c.length then
    -- buffer full: decrypt and emit the first frame, keep going
    match dec nonce (c.take BLOCK_LENGTH) with
    | none => none
    | some pt =>
      match decFrames dec (nonce + 1) (c.drop BLOCK_LENGTH) with
      | none => none
      | some rest => some (pt ++ rest)
  else if c.length = BLOCK_LENGTH then
    -- end of input, one frame buffered
    match dec nonce c with
    | none => none
    | some pt =>
      let pad := beVal (pt.drop (pt.length - 4))
      if pad ≤ pt.length then some (pt.take (pt.length - pad)) else none
  else if c.length = 2 * BLOCK_LENGTH then
    -- end of input, two frames buffered
    match dec nonce (c.take BLOCK_LENGTH), dec (nonce + 1) (c.drop BLOCK_LENGTH) with
    | some pt1, some pt2 =>
      let pad := beVal (pt2.drop (pt2.length - 4))
      if DATA_LENGTH ≤ pad then
        if pad - DATA_LENGTH ≤ pt1.length then
          some (pt1.take (pt1.length - (pad - DATA_LENGTH)))
        else none
      else
        if pad ≤ pt2.length then some (pt1 ++ pt2.take (pt2.length - pad)) else none
    | _, _ => none
  else none
termination_by c.length
decreasing_by
  simp only [List.length_drop]
  have : 0 < BLOCK_LENGTH := by norm_num [BLOCK_LENGTH]
  omega

/-- Bytes written out by the decrypting writer over a complete ciphertext
stream followed by exactly one zero-length write: the first 16 bytes load
the initial counter (`u128::from_be_bytes`), the rest are the frames.  A
stream shorter than the header never leaves the `Nonce` state. -/
def decryptStream (dec : Nat → List Nat → Option (List Nat)) (c : List Nat) :
    Option (List Nat) :=
  if 16 ≤ c.length then decFrames dec (beVal (c.take 16)) (c.drop 16) else none

/-! ### The nonce ledger (`src/config.rs`)

Only the three claim-relevant pieces of `Config` state are modelled: the
in-memory `nonce_alloc`, the transient (`#[serde(skip)]`) `nonce_ctr`, and
the `nonce_alloc` value currently serialized on disk (`disk_alloc`, written
by `save()`).  The remaining fields (credentials, paths, flags) play no
role in the nonce claims. -/

/-- `const NONCE_PREALLOC_AMOUNT: u128 = 65536;` -/
def NONCE_PREALLOC_AMOUNT : Nat := 65536

structure ConfigState where
  nonce_alloc : Nat
  nonce_ctr : Nat
  /-- the `nonce_alloc` stored in the on-disk config file -/
  disk_alloc : Nat
deriving DecidableEq, Repr

/-- The `while self.nonce_ctr >= self.nonce_alloc` loop of `consume_nonces`:
grows `alloc` by `NONCE_PREALLOC_AMOUNT` until it strictly exceeds `ctr`,
recording in `write` whether the body ran at least once. -/
def growAlloc (ctr alloc : Nat) (write : Bool) : Nat × Bool :=
  if alloc ≤ ctr then growAlloc ctr (alloc + NONCE_PREALLOC_AMOUNT) true
  else (alloc, write)
termination_by ctr + NONCE_PREALLOC_AMOUNT - alloc
decreasing_by
  have : 0 < NONCE_PREALLOC_AMOUNT := by norm_num [NONCE_PREALLOC_AMOUNT]
  omega

/-- `Config::consume_nonces` (`src/config.rs`, lines 81–95): returns the
start of the consumed range together with the updated state and whether
`save()` was called (the `write` flag). -/
def consume_nonces (c : ConfigState) (amount : Nat) : Nat × ConfigState × Bool :=
  let start := c.nonce_ctr
  let ctr := c.nonce_ctr + amount
  let g := growAlloc ctr c.nonce_alloc false
  ( start,
    { nonce_alloc := g.1, nonce_ctr := ctr,
      disk_alloc := if g.2 then g.1 else c.disk_alloc },
    g.2 )

/-- `Config::from_file` (`src/config.rs`, lines 58–72) as far as the nonce
ledger is concerned: the deserialized `nonce_alloc` is the on-disk value and
`cfg.nonce_ctr = cfg.nonce_alloc`. -/
def config_from_file (disk : Nat) : ConfigState :=
  { nonce_alloc := disk, nonce_ctr := disk, disk_alloc := disk }

/-! ### The manifest (`src/manifest.rs`)

Paths and masks are UTF-8 byte strings, modelled as `List Nat`.  `bytesCmp`
is `str::cmp` / `[u8]::cmp`: lexicographic byte comparison.  `binarySearchGo`
is `slice::binary_search_by` (midpoint `left + (right - left) / 2`; the
comparator receives the probed element and a `Less` result moves `left`
past the midpoint).  The manifest is POSIX-mode: `cfg!(windows)` is false,
so the unmasked name is `path[1..]`. -/

def bytesCmp : List Nat → List Nat → Ordering
  | [], [] => .eq
  | [], _ :: _ => .lt
  | _ :: _, [] => .gt
  | a :: as, b :: bs => if a < b then .lt else if b < a then .gt else bytesCmp as bs

structure FileEntry where
  path : List Nat
  timestamp : Nat
  mask : List Nat
deriving DecidableEq, Repr

/-- Placeholder used for (provably in-bounds) list indexing. -/
def defaultEntry : FileEntry := ⟨[], 0, []⟩

/-- `slice::binary_search_by` on `xs[left..right]`.  `.inl n` is Rust's
`Ok(n)` (comparator returned `Equal` at `n`), `.inr n` is `Err(n)` (the
insertion point). -/
def binarySearchGo (f : FileEntry → Ordering) (xs : List FileEntry)
    (left right : Nat) : Nat ⊕ Nat :=
  if h : left < right then
    let mid := left + (right - left) / 2
    match f (xs.getD mid defaultEntry) with
    | .lt => binarySearchGo f xs (mid + 1) right
    | .gt => binarySearchGo f xs left mid
    | .eq => .inl mid
  else .inr left
termination_by right - left
decreasing_by
  · have : (right - left) / 2 < right - left := Nat.div_lt_self (by omega) (by norm_num)
    omega
  · have : (right - left) / 2 < right - left := Nat.div_lt_self (by omega) (by norm_num)
    omega

def binary_search_by (f : FileEntry → Ordering) (xs : List FileEntry) : Nat ⊕ Nat :=
  binarySearchGo f xs 0 xs.length

structure FileManifest where
  /-- if true, mask names; if false, translate to B2-friendly paths -/
  mask : Bool
  files : List FileEntry
deriving DecidableEq, Repr

/-- `FileManifest::get_mask` (`src/manifest.rs`, lines 53–79).  The random
sampling `thread_rng().sample_iter(Alphanumeric).take(MASK_SIZE)` is an
external-RNG effect; the string it would produce is passed in as `fresh`.
On a hit, returns the stored pair; on a miss, inserts a new entry at the
insertion point and returns `(timestamp, new_mask)` where `new_mask` is
`fresh` when masking and `path[1..]` (POSIX branch) otherwise. -/
def get_mask (fresh : List Nat) (m : FileManifest) (path : List Nat)
    (timestamp : Nat) : (Nat × List Nat) × FileManifest :=
  match binary_search_by (fun e => bytesCmp e.path path) m.files with
  | .inl n =>
    (((m.files.getD n defaultEntry).timestamp, (m.files.getD n defaultEntry).mask), m)
  | .inr n =>
    let new_mask := if m.mask then fresh else path.drop 1
    ((timestamp, new_mask),
      { m with files := m.files.insertIdx n ⟨path, timestamp, new_mask⟩ })

/-- `FileManifest::get_from_path` (`src/manifest.rs`, lines 90–95). -/
def get_from_path (m : FileManifest) (path : List Nat) : Option (Nat × List Nat) :=
  match binary_search_by (fun e => bytesCmp e.path path) m.files with
  | .inl n =>
    some ((m.files.getD n defaultEntry).timestamp, (m.files.getD n defaultEntry).mask)
  | .inr _ => none

/-- `FileManifest::remove_path` (`src/manifest.rs`, lines 109–115). -/
def remove_path (m : FileManifest) (path : List Nat) : FileManifest :=
  match binary_search_by (fun e => bytesCmp e.path path) m.files with
  | .inl n => { m with files := m.files.eraseIdx n }
  | .inr _ => m

/-- `FileManifest::remove_mask` (`src/manifest.rs`, lines 119–125).  Note:
the comparator keys on `e.mask`, although `files` is only kept sorted by
`path`. -/
def remove_mask (m : FileManifest) (mask : List Nat) : FileManifest :=
  match binary_search_by (fun e => bytesCmp e.mask mask) m.files with
  | .inl n => { m with files := m.files.eraseIdx n }
  | .inr _ => m

/-- What a linear scan for `path` returns (the reference semantics the spec
compares `lookup` against). -/
def linearLookup (l : List FileEntry) (path : List Nat) : Option (Nat × List Nat) :=
  match l.find? (fun e => decide (e.path = path)) with
  | some e => some (e.timestamp, e.mask)
  | none => none

/-- Manifest invariant: entries strictly sorted by path (hence unique keys). -/
def entriesSorted (l : List FileEntry) : Prop :=
  l.Pairwise (fun a b => bytesCmp a.path b.path = .lt)

instance entriesSorted_decidable (l : List FileEntry) : Decidable (entriesSorted l) := by
  unfold entriesSorted; infer_instance

/-- The operations claim C8 quantifies over. -/
inductive ManifestOp where
  | getOrCreate (fresh path : List Nat) (ts : Nat)
  | removeByPath (path : List Nat)

def applyOp (m : FileManifest) : ManifestOp → FileManifest
  | .getOrCreate fresh path ts => (get_mask fresh m path ts).2
  | .removeByPath path => remove_path m path

def applyOps (m : FileManifest) (ops : List ManifestOp) : FileManifest :=
  ops.foldl applyOp m

/-! ### The file-list evaluator (`src/filelist.rs`)

`build_file_list` is modelled after parsing: a parsed directory rule is a
root path together with its filter patterns (the backup-list text-file
parsing, `WalkDir`, and the `regex` crate are external).  `walk root`
returns the relative paths of the files `WalkDir::new(root)` discovers
beneath `root`; the full path of such a file (what `entry.path()` yields)
is `root ++ "/" ++ rel`.  `isMatch pat s` stands for
`RegexSet::is_match` of one pattern; the code calls it on the FULL path
(`filelist.rs` line 99: `reg_set.is_match(name)` where
`name = entry.path()`).  `containsSub` below is the exact `is_match`
semantics for a metacharacter-free pattern: an unanchored regex matches
iff the literal pattern occurs as a contiguous substring. -/

/-- Path join `root/rel` (byte 47 is `'/'`). -/
def joinPath (root rel : List Nat) : List Nat := root ++ 47 :: rel

/-- `build_file_list` (`src/filelist.rs`, lines 69–108), directory rules:
for each rule, walk its root and keep each discovered file's full path
unless some filter of the rule matches the name the code tests —
the full path. -/
def build_file_list (isMatch : List Nat → List Nat → Bool)
    (rules : List (List Nat × List (List Nat)))
    (walk : List Nat → List (List Nat)) : List (List Nat) :=
  rules.flatMap fun rule =>
    (walk rule.1).filterMap fun rel =>
      let name := joinPath rule.1 rel
      if rule.2.any (fun pat => isMatch pat name) then none else some name

/-- Does `pat` occur at the front of `s`? -/
def matchesFront : List Nat → List Nat → Bool
  | [], _ => true
  | _ :: _, [] => false
  | a :: ps, b :: ss => a == b && matchesFront ps ss

/-- Does `pat` occur as a contiguous substring of `s`?  This is the
`regex` semantics of a literal (metacharacter-free) pattern. -/
def containsSub (pat : List Nat) (s : List Nat) : Bool :=
  matchesFront pat s ||
    match s with
    | [] => false
    | _ :: t => containsSub pat t

/-! ### Upload and download retry loops
(`src/subcommands/backup/upload.rs` lines 294–355,
`src/subcommands/backup/download.rs` lines 290–370)

Both are `for attempts in 0..5` loops around one transfer call.  The loop
control flow is modelled as the trace of observable events it performs,
with `res i` telling whether the `i`-th transfer attempt succeeds.  The
upload loop `break`s on `Ok`; the download loop's `Ok` arm falls through
to the next iteration (there is no `break`).  A failed attempt sleeps
5000 ms and retries, unless it was attempt 4, which logs and lets the
loop end. -/

inductive RetryEvent where
  | transfer (attempt : Nat) (ok : Bool)
  | sleep (ms : Nat)
  | logFail
deriving DecidableEq, Repr

/-- Upload retry loop body starting at attempt `i` (`upload.rs` 294–355):
`Ok(_) => break`; on `Err`, attempt 4 logs, earlier attempts sleep 5000 ms
and continue. -/
def uploadLoop (res : Nat → Bool) (i : Nat) : List RetryEvent :=
  if h : i < 5 then
    if res i then [.transfer i true]
    else
      .transfer i false ::
        (if i = 4 then .logFail :: uploadLoop res (i + 1)
         else .sleep 5000 :: uploadLoop res (i + 1))
  else []
termination_by 5 - i

/-- Download retry loop body starting at attempt `i` (`download.rs`
290–370): identical to the upload loop except that the `Ok` arm does not
`break` — the loop proceeds to the next attempt after a success. -/
def downloadLoop (res : Nat → Bool) (i : Nat) : List RetryEvent :=
  if h : i < 5 then
    if res i then .transfer i true :: downloadLoop res (i + 1)
    else
      .transfer i false ::
        (if i = 4 then .logFail :: downloadLoop res (i + 1)
         else .sleep 5000 :: downloadLoop res (i + 1))
  else []
termination_by 5 - i

/-- Number of transfer attempts in a retry trace. -/
def transferCount (tr : List RetryEvent) : Nat :=
  tr.countP fun e => match e with | .transfer _ _ => true | _ => false

/-! ## Nonce-ledger lemmas -/

theorem growAlloc_spec (ctr alloc : Nat) (w : Bool) :
    ctr < (growAlloc ctr alloc w).1 ∧ alloc ≤ (growAlloc ctr alloc w).1 ∧
    (∃ k, (growAlloc ctr alloc w).1 = alloc + NONCE_PREALLOC_AMOUNT * k) ∧
    (growAlloc ctr alloc w).2 = (w || decide (alloc ≤ ctr)) := by
  induction alloc, w using growAlloc.induct ctr with
  | case1 alloc w hle ih =>
    rw [growAlloc, if_pos hle]
    obtain ⟨h1, h2, ⟨k, hk⟩, h4⟩ := ih
    refine ⟨h1, by omega, ⟨k + 1, by simp only [NONCE_PREALLOC_AMOUNT] at hk ⊢; omega⟩, ?_⟩
    simp [h4, hle]
  | case2 alloc w hle =>
    rw [growAlloc, if_neg hle]
    exact ⟨by omega, le_refl _, ⟨0, by omega⟩, by simp [hle]⟩

theorem growAlloc_not_write (ctr alloc : Nat) (w : Bool) (h : ¬ alloc ≤ ctr) :
    growAlloc ctr alloc w = (alloc, w) := by
  rw [growAlloc, if_neg h]

/-- `consume_nonces` preserves the in-sync invariant `disk_alloc = nonce_alloc`
(every state the program reaches satisfies it: `from_file` establishes it and
`save()` re-establishes it on every growth). -/
theorem consume_nonces_inSync (c : ConfigState) (n : Nat)
    (h : c.disk_alloc = c.nonce_alloc) :
    (consume_nonces c n).2.1.disk_alloc = (consume_nonces c n).2.1.nonce_alloc := by
  unfold consume_nonces
  obtain ⟨h1, h2, _, h4⟩ := growAlloc_spec (c.nonce_ctr + n) c.nonce_alloc false
  simp only [Bool.false_or] at h4
  by_cases hle : c.nonce_alloc ≤ c.nonce_ctr + n
  · simp [h4, hle]
  · simp [h4, hle, growAlloc_not_write _ _ _ hle, h]

theorem config_from_file_inSync (d : Nat) :
    (config_from_file d).disk_alloc = (config_from_file d).nonce_alloc := rfl

/-- Claim C2: two successive `consume_nonces` calls hand out the disjoint
ranges `[s1, s1+n1)` and `[s1+n1, s1+n1+n2)`; and after a simulated crash —
reloading the config from the `nonce_alloc` persisted by the first call —
the second call starts at (hence at or above) that persisted `nonce_alloc`,
which itself lies at or above `s1 + n1`, so no nonce is handed out twice.
The hypothesis `hsync` states that the starting state is one the program
can actually be in: the on-disk `nonce_alloc` agrees with memory, which
`from_file` establishes and `consume_nonces` preserves. -/
theorem consume_nonces_no_reuse (c : ConfigState) (n1 n2 s1 s2 : Nat)
    (c1 c2 : ConfigState) (w1 w2 : Bool)
    (hsync : c.disk_alloc = c.nonce_alloc)
    (h1 : consume_nonces c n1 = (s1, c1, w1))
    (h2 : consume_nonces c1 n2 = (s2, c2, w2)) :
    s2 = s1 + n1 ∧
    c1.disk_alloc ≤ (consume_nonces (config_from_file c1.disk_alloc) n2).1 ∧
    s1 + n1 ≤ (consume_nonces (config_from_file c1.disk_alloc) n2).1 := by
  obtain ⟨hgt, hge, _, hw⟩ := growAlloc_spec (c.nonce_ctr + n1) c.nonce_alloc false
  simp only [consume_nonces, Prod.mk.injEq] at h1 h2
  obtain ⟨hs1, hc1, hw1⟩ := h1
  obtain ⟨hs2, -, -⟩ := h2
  have hstart : (consume_nonces (config_from_file c1.disk_alloc) n2).1 =
      c1.disk_alloc := rfl
  refine ⟨?_, by rw [hstart], ?_⟩
  · rw [← hs2, ← hc1, ← hs1]
  · rw [hstart, ← hc1, ← hs1]
    simp only [Bool.false_or] at hw
    by_cases hg : (growAlloc (c.nonce_ctr + n1) c.nonce_alloc false).2 = true
    · show c.nonce_ctr + n1 ≤
        (if (growAlloc (c.nonce_ctr + n1) c.nonce_alloc false).2 = true
         then (growAlloc (c.nonce_ctr + n1) c.nonce_alloc false).1 else c.disk_alloc)
      rw [if_pos hg]
      omega
    · show c.nonce_ctr + n1 ≤
        (if (growAlloc (c.nonce_ctr + n1) c.nonce_alloc false).2 = true
         then (growAlloc (c.nonce_ctr + n1) c.nonce_alloc false).1 else c.disk_alloc)
      rw [if_neg hg, hsync]
      simp only [hw, decide_eq_true_eq] at hg
      omega

/-- Claim C2 witness: the literal S5 scenario of the spec — on a fresh
config, `consume(10)`, crash-reload from the persisted `nonce_alloc`
(65536), then `consume(1)` starts at 65536 ≥ 10 = s1 + n1. -/
theorem consume_nonces_no_reuse_witness :
    consume_nonces ⟨0, 0, 0⟩ 10 = (0, ⟨65536, 10, 65536⟩, true) ∧
    consume_nonces ⟨65536, 10, 65536⟩ 1 = (10, ⟨65536, 11, 65536⟩, false) ∧
    (10 = 0 + 10 ∧
      (⟨65536, 10, 65536⟩ : ConfigState).disk_alloc ≤
        (consume_nonces (config_from_file (⟨65536, 10, 65536⟩ : ConfigState).disk_alloc) 1).1 ∧
      0 + 10 ≤
        (consume_nonces (config_from_file (⟨65536, 10, 65536⟩ : ConfigState).disk_alloc) 1).1) := by
  have e1 : consume_nonces ⟨0, 0, 0⟩ 10 = (0, ⟨65536, 10, 65536⟩, true) := by
    simp [consume_nonces, growAlloc, NONCE_PREALLOC_AMOUNT]
  have e2 : consume_nonces ⟨65536, 10, 65536⟩ 1 = (10, ⟨65536, 11, 65536⟩, false) := by
    simp [consume_nonces, growAlloc, NONCE_PREALLOC_AMOUNT]
  exact ⟨e1, e2, consume_nonces_no_reuse ⟨0, 0, 0⟩ 10 1 0 10 ⟨65536, 10, 65536⟩
    ⟨65536, 11, 65536⟩ true false rfl e1 e2⟩

/-- Claim C5 (amended): `consume_nonces` returns the current counter, grows
`nonce_alloc` in whole `NONCE_PREALLOC_AMOUNT` (65536) increments, and
persists the config if and only if the incremented `nonce_ctr` is greater
than **or equal to** `nonce_alloc` (the loop guard is `>=`, not `>`); when
it does not persist, `nonce_alloc` and the on-disk state are unchanged.  In
particular `consume_nonces 0` returns the current counter and performs no
persistence provided `nonce_ctr < nonce_alloc`; on a boundary state with
`nonce_ctr = nonce_alloc` even `consume_nonces 0` grows and persists. -/
theorem consume_nonces_frame (c : ConfigState) (n s : Nat) (c' : ConfigState)
    (w : Bool) (h : consume_nonces c n = (s, c', w)) :
    s = c.nonce_ctr ∧
    c'.nonce_ctr = c.nonce_ctr + n ∧
    (∃ k, c'.nonce_alloc = c.nonce_alloc + NONCE_PREALLOC_AMOUNT * k) ∧
    (w = true ↔ c.nonce_alloc ≤ c.nonce_ctr + n) ∧
    (w = true → c'.disk_alloc = c'.nonce_alloc) ∧
    (w = false → c'.nonce_alloc = c.nonce_alloc ∧ c'.disk_alloc = c.disk_alloc) := by
  obtain ⟨hgt, hge, hk, hw⟩ := growAlloc_spec (c.nonce_ctr + n) c.nonce_alloc false
  simp only [consume_nonces, Prod.mk.injEq] at h
  obtain ⟨hs, hc, hwflag⟩ := h
  simp only [Bool.false_or] at hw
  subst hs hc hwflag
  refine ⟨rfl, rfl, hk, by simp [hw], ?_, ?_⟩
  · intro ht; simp [ht]
  · intro hf
    rw [hw] at hf
    have hlt : ¬ c.nonce_alloc ≤ c.nonce_ctr + n := by
      simpa using hf
    rw [growAlloc_not_write _ _ _ hlt]
    simp [hw, hlt]

/-- Claim C5 witness: a call strictly inside the allocation block returns
the counter, does not persist, and changes nothing but `nonce_ctr`. -/
theorem consume_nonces_frame_witness :
    consume_nonces ⟨100, 5, 100⟩ 3 = (5, ⟨100, 8, 100⟩, false) ∧
    (5 = (⟨100, 5, 100⟩ : ConfigState).nonce_ctr ∧
      (⟨100, 8, 100⟩ : ConfigState).nonce_ctr = (⟨100, 5, 100⟩ : ConfigState).nonce_ctr + 3 ∧
      (∃ k, (⟨100, 8, 100⟩ : ConfigState).nonce_alloc =
        (⟨100, 5, 100⟩ : ConfigState).nonce_alloc + NONCE_PREALLOC_AMOUNT * k) ∧
      (false = true ↔ (⟨100, 5, 100⟩ : ConfigState).nonce_alloc ≤
        (⟨100, 5, 100⟩ : ConfigState).nonce_ctr + 3) ∧
      (false = true → (⟨100, 8, 100⟩ : ConfigState).disk_alloc =
        (⟨100, 8, 100⟩ : ConfigState).nonce_alloc) ∧
      (false = false → (⟨100, 8, 100⟩ : ConfigState).nonce_alloc =
        (⟨100, 5, 100⟩ : ConfigState).nonce_alloc ∧
        (⟨100, 8, 100⟩ : ConfigState).disk_alloc =
        (⟨100, 5, 100⟩ : ConfigState).disk_alloc)) := by
  have e : consume_nonces ⟨100, 5, 100⟩ 3 = (5, ⟨100, 8, 100⟩, false) := by
    simp [consume_nonces, growAlloc, NONCE_PREALLOC_AMOUNT]
  exact ⟨e, consume_nonces_frame ⟨100, 5, 100⟩ 3 5 ⟨100, 8, 100⟩ false e⟩

/-- Claim C5 counterexample: on the freshly-initialized config (exactly what
`from_file` yields before any nonce was ever used — `nonce_alloc = 0`,
`nonce_ctr = 0`), `consume_nonces 0` grows `nonce_alloc` to 65536 and
persists, although the incremented `nonce_ctr` (0) does not strictly exceed
`nonce_alloc` (0) — the claim says `consume(0)` performs no persistence and
leaves `nonce_alloc` unchanged. -/
theorem consume_nonces_zero_persists :
    config_from_file 0 = ⟨0, 0, 0⟩ ∧
    consume_nonces ⟨0, 0, 0⟩ 0 = (0, ⟨65536, 0, 65536⟩, true) ∧
    ¬ (0 + 0 > (⟨0, 0, 0⟩ : ConfigState).nonce_alloc) := by
  refine ⟨rfl, ?_, by simp⟩
  simp [consume_nonces, growAlloc, NONCE_PREALLOC_AMOUNT]

/-! ## Retry-loop evaluation (claim C10) -/

/-- Claim C10, failing input: an object whose very first transfer attempt
succeeds.  The upload worker stops after that one transfer (`Ok(_) =>
break`), but the download worker performs the transfer five times — its
`Ok` arm falls through to the next loop iteration because the `break` is
missing — contradicting the claim that a successful attempt ends the
attempts for that object. -/
theorem downloadLoop_repeats_after_success :
    uploadLoop (fun _ => true) 0 = [.transfer 0 true] ∧
    downloadLoop (fun _ => true) 0 =
      [.transfer 0 true, .transfer 1 true, .transfer 2 true,
       .transfer 3 true, .transfer 4 true] ∧
    transferCount (downloadLoop (fun _ => true) 0) = 5 ∧
    transferCount (uploadLoop (fun _ => true) 0) = 1 := by
  have hu : uploadLoop (fun _ => true) 0 = [.transfer 0 true] := by
    rw [uploadLoop]; simp
  have hd : downloadLoop (fun _ => true) 0 =
      [.transfer 0 true, .transfer 1 true, .transfer 2 true,
       .transfer 3 true, .transfer 4 true] := by
    rw [downloadLoop]; simp only [if_true]
    rw [downloadLoop]; simp only [if_true]
    rw [downloadLoop]; simp only [if_true]
    rw [downloadLoop]; simp only [if_true]
    rw [downloadLoop]; simp only [if_true]
    rw [downloadLoop]; simp
  rw [hu, hd]
  refine ⟨rfl, rfl, rfl, rfl⟩

/-! ## File-list evaluation (claim C6) -/

/-- Claim C6, failing input: rule root `/home` (bytes of `"/home"`) with
the single literal filter `home`, one file `doc` discovered beneath the
root.  The filter does not match the path `doc` relative to the rule root,
so the claim (and the module's own doc comment, `filelist.rs` lines 24–27)
says the file is included; but the code matches the filter against the
full path `/home/doc` (`filelist.rs` line 99), which contains `home`, so
the produced list is empty. -/
theorem build_file_list_uses_full_path :
    build_file_list containsSub [([47, 104, 111, 109, 101], [[104, 111, 109, 101]])]
      (fun _ => [[100, 111, 99]]) = [] ∧
    containsSub [104, 111, 109, 101] [100, 111, 99] = false ∧
    containsSub [104, 111, 109, 101]
      (joinPath [47, 104, 111, 109, 101] [100, 111, 99]) = true := by
  refine ⟨by decide, by decide, by decide⟩

/-! ## `remove_mask` evaluation (claim C9) -/

/-- Claim C9, failing input: the path-sorted manifest
`[(path "a", mask "b"), (path "b", mask "a")]` (97 = `'a'`, 98 = `'b'`) and
`remove_mask "b"`.  An entry with mask `"b"` exists (at index 0), yet the
manifest is returned unchanged: `remove_mask` binary-searches on the `mask`
field, but `files` is sorted by `path`, so the probe at index 1 sees mask
`"a" < "b"`, sends the search right, and the search ends with `Err(2)`. -/
theorem remove_mask_misses_entry :
    entriesSorted [⟨[97], 1, [98]⟩, ⟨[98], 2, [97]⟩] ∧
    (⟨[97], 1, [98]⟩ : FileEntry) ∈
      (FileManifest.mk false [⟨[97], 1, [98]⟩, ⟨[98], 2, [97]⟩]).files ∧
    (⟨[97], 1, [98]⟩ : FileEntry).mask = [98] ∧
    remove_mask ⟨false, [⟨[97], 1, [98]⟩, ⟨[98], 2, [97]⟩]⟩ [98] =
      ⟨false, [⟨[97], 1, [98]⟩, ⟨[98], 2, [97]⟩]⟩ := by
  refine ⟨by decide, by decide, rfl, ?_⟩
  have hbs : binary_search_by (fun e => bytesCmp e.mask [98])
      [⟨[97], 1, [98]⟩, ⟨[98], 2, [97]⟩] = .inr 2 := by
    rw [binary_search_by]
    rw [binarySearchGo]
    norm_num [bytesCmp]
    rw [binarySearchGo]
    norm_num
  rw [remove_mask, hbs]

/-! ## Encrypted-size lemmas (claims C3 and C4) -/

/-- The encrypting reader emits exactly `(L+3)/DATA_LENGTH + 1` frames —
i.e. `get_nonces_required L` frames — of `BLOCK_LENGTH` bytes each, for any
cipher that appends a 16-byte tag. -/
theorem encFrames_length (enc : Nat → List Nat → List Nat)
    (hlen : ∀ n m, (enc n m).length = m.length + 16) :
    ∀ (L : Nat) (p : List Nat), p.length ≤ L → ∀ nonce,
      (encFrames enc nonce p).length =
        BLOCK_LENGTH * ((p.length + 3) / DATA_LENGTH + 1) := by
  intro L
  induction L using Nat.strong_induction_on with
  | _ L ih =>
    intro p hp nonce
    rw [encFrames]
    by_cases hD : DATA_LENGTH ≤ p.length
    · rw [dif_pos hD]
      have hD0 : 0 < DATA_LENGTH := by norm_num [DATA_LENGTH, BLOCK_LENGTH]
      have hrec := ih (L - 1) (by omega) (p.drop DATA_LENGTH)
        (by simp only [List.length_drop]; omega) (nonce + 1)
      rw [List.length_append, hlen, hrec, List.length_take]
      simp only [List.length_drop, DATA_LENGTH, BLOCK_LENGTH] at *
      omega
    · rw [dif_neg hD]
      simp only []
      by_cases hpad : DATA_LENGTH - p.length < 4
      · rw [if_pos hpad, List.length_append, hlen, hlen, List.length_append,
          List.length_append, List.length_replicate, List.length_replicate,
          beBytes_length]
        simp only [DATA_LENGTH, BLOCK_LENGTH] at *
        omega
      · rw [if_neg hpad, hlen, List.length_append, List.length_append,
          List.length_replicate, beBytes_length]
        simp only [DATA_LENGTH, BLOCK_LENGTH] at *
        omega

/-- Total emitted length: header plus frames. -/
theorem encryptStream_length (enc : Nat → List Nat → List Nat)
    (hlen : ∀ n m, (enc n m).length = m.length + 16) (s : Nat) (p : List Nat) :
    (encryptStream enc s p).length =
      16 + get_nonces_required p.length * BLOCK_LENGTH := by
  rw [encryptStream, List.length_append, beBytes_length,
    encFrames_length enc hlen p.length p (le_refl _) s, get_nonces_required]
  simp only [DATA_LENGTH]
  ring

/-! A concrete cipher satisfying the AEAD interface hypotheses, used by the
witnesses: "encryption" appends a 16-byte tag of zeroes, "decryption"
removes it. -/

def encId (n : Nat) (m : List Nat) : List Nat := m ++ List.replicate 16 0

def decId (n : Nat) (c : List Nat) : Option (List Nat) :=
  if 16 ≤ c.length then some (c.take (c.length - 16)) else none

theorem encId_length : ∀ n m, (encId n m).length = m.length + 16 := by
  intro n m; simp [encId]

theorem decId_encId : ∀ n m, decId n (encId n m) = some m := by
  intro n m
  simp [encId, decId, List.take_left]

/-- Claim C3 (amended): for every plaintext length `L` the encrypting
reader emits exactly `16 + ⌈(L+4)/DATA_LENGTH⌉ · BLOCK_LENGTH` bytes with
**no** corner-case adjustment — the ceiling already accounts for the extra
full padding frame when `L mod DATA_LENGTH ∈ {DATA_LENGTH−3, DATA_LENGTH−2,
DATA_LENGTH−1}` — and `get_nonces_required L` equals that same frame count,
so the emitted length always equals
`16 + get_nonces_required L * BLOCK_LENGTH`. -/
theorem encrypted_size_eq (enc : Nat → List Nat → List Nat)
    (hlen : ∀ n m, (enc n m).length = m.length + 16) (s : Nat) (p : List Nat) :
    (encryptStream enc s p).length =
      16 + get_nonces_required p.length * BLOCK_LENGTH ∧
    get_nonces_required p.length =
      (p.length + 4 + (DATA_LENGTH - 1)) / DATA_LENGTH := by
  refine ⟨encryptStream_length enc hlen s p, ?_⟩
  simp only [get_nonces_required, DATA_LENGTH, BLOCK_LENGTH]
  omega

/-- Claim C3 witness: the concrete cipher at `L = 0`. -/
theorem encrypted_size_eq_witness :
    (∀ n m, (encId n m).length = m.length + 16) ∧
    ((encryptStream encId 0 ([] : List Nat)).length =
        16 + get_nonces_required (List.length ([] : List Nat)) * BLOCK_LENGTH ∧
      get_nonces_required (List.length ([] : List Nat)) =
        (List.length ([] : List Nat) + 4 + (DATA_LENGTH - 1)) / DATA_LENGTH) :=
  ⟨encId_length, encrypted_size_eq encId encId_length 0 []⟩

/-- Claim C3 counterexample: at `L = 8173 = DATA_LENGTH − 3` (a corner
case) the reader emits `16400 = 16 + 2·8192` bytes and requires 2 nonces,
but the claim's formula — base count `⌈(L+4)/DATA_LENGTH⌉ = 2` plus one
extra block in the corner case — predicts `16 + 3·8192 = 24592` bytes and
3 nonces. -/
theorem encrypted_size_corner_case :
    (encryptStream encId 0 (List.replicate 8173 0)).length = 16400 ∧
    get_nonces_required 8173 = 2 ∧
    16 + ((8173 + 4 + (DATA_LENGTH - 1)) / DATA_LENGTH + 1) * BLOCK_LENGTH = 24592 ∧
    (16400 : Nat) ≠ 24592 := by
  refine ⟨?_, by norm_num [get_nonces_required, DATA_LENGTH, BLOCK_LENGTH],
    by norm_num [DATA_LENGTH, BLOCK_LENGTH], by norm_num⟩
  rw [encryptStream_length encId encId_length]
  norm_num [get_nonces_required, DATA_LENGTH, BLOCK_LENGTH]

/-- Claim C4 (amended): the padding-corner size table, with the corrected
entry for `L = 2·DATA_LENGTH − 1 = 16351`: that length needs one full
chunk plus a remainder of `DATA_LENGTH − 1`, whose padding spills into an
extra full frame, so its encrypted size is `24576 + 16`, not `16384 + 16`.
All other table entries are as the claim states. -/
theorem padding_corner_sizes (enc : Nat → List Nat → List Nat)
    (hlen : ∀ n m, (enc n m).length = m.length + 16) (s : Nat)
    (p0 p1 p2 p3 p4 p5 p6 p7 p8 p9 : List Nat)
    (h0 : p0.length = 0) (h1 : p1.length = 1) (h2 : p2.length = 8172)
    (h3 : p3.length = 8173) (h4 : p4.length = 8174) (h5 : p5.length = 8175)
    (h6 : p6.length = 8176) (h7 : p7.length = 8177) (h8 : p8.length = 16351)
    (h9 : p9.length = 16352) :
    (encryptStream enc s p0).length = 8192 + 16 ∧
    (encryptStream enc s p1).length = 8192 + 16 ∧
    (encryptStream enc s p2).length = 8192 + 16 ∧
    (encryptStream enc s p3).length = 16384 + 16 ∧
    (encryptStream enc s p4).length = 16384 + 16 ∧
    (encryptStream enc s p5).length = 16384 + 16 ∧
    (encryptStream enc s p6).length = 16384 + 16 ∧
    (encryptStream enc s p7).length = 16384 + 16 ∧
    (encryptStream enc s p8).length = 24576 + 16 ∧
    (encryptStream enc s p9).length = 24576 + 16 := by
  refine ⟨?_, ?_, ?_, ?_, ?_, ?_, ?_, ?_, ?_, ?_⟩ <;>
    rw [encryptStream_length enc hlen] <;>
    first
      | (rw [h0]; norm_num [get_nonces_required, DATA_LENGTH, BLOCK_LENGTH])
      | (rw [h1]; norm_num [get_nonces_required, DATA_LENGTH, BLOCK_LENGTH])
      | (rw [h2]; norm_num [get_nonces_required, DATA_LENGTH, BLOCK_LENGTH])
      | (rw [h3]; norm_num [get_nonces_required, DATA_LENGTH, BLOCK_LENGTH])
      | (rw [h4]; norm_num [get_nonces_required, DATA_LENGTH, BLOCK_LENGTH])
      | (rw [h5]; norm_num [get_nonces_required, DATA_LENGTH, BLOCK_LENGTH])
      | (rw [h6]; norm_num [get_nonces_required, DATA_LENGTH, BLOCK_LENGTH])
      | (rw [h7]; norm_num [get_nonces_required, DATA_LENGTH, BLOCK_LENGTH])
      | (rw [h8]; norm_num [get_nonces_required, DATA_LENGTH, BLOCK_LENGTH])
      | (rw [h9]; norm_num [get_nonces_required, DATA_LENGTH, BLOCK_LENGTH])

/-- Claim C4 witness: the concrete cipher on all-zero plaintexts of the
ten table lengths. -/
theorem padding_corner_sizes_witness :
    (∀ n m, (encId n m).length = m.length + 16) ∧
    ((encryptStream encId 0 (List.replicate 0 0)).length = 8192 + 16 ∧
     (encryptStream encId 0 (List.replicate 1 0)).length = 8192 + 16 ∧
     (encryptStream encId 0 (List.replicate 8172 0)).length = 8192 + 16 ∧
     (encryptStream encId 0 (List.replicate 8173 0)).length = 16384 + 16 ∧
     (encryptStream encId 0 (List.replicate 8174 0)).length = 16384 + 16 ∧
     (encryptStream encId 0 (List.replicate 8175 0)).length = 16384 + 16 ∧
     (encryptStream encId 0 (List.replicate 8176 0)).length = 16384 + 16 ∧
     (encryptStream encId 0 (List.replicate 8177 0)).length = 16384 + 16 ∧
     (encryptStream encId 0 (List.replicate 16351 0)).length = 24576 + 16 ∧
     (encryptStream encId 0 (List.replicate 16352 0)).length = 24576 + 16) :=
  ⟨encId_length,
    padding_corner_sizes encId encId_length 0 _ _ _ _ _ _ _ _ _ _
      (List.length_replicate 0 0) (List.length_replicate 1 0)
      (List.length_replicate 8172 0) (List.length_replicate 8173 0)
      (List.length_replicate 8174 0) (List.length_replicate 8175 0)
      (List.length_replicate 8176 0) (List.length_replicate 8177 0)
      (List.length_replicate 16351 0) (List.length_replicate 16352 0)⟩

/-- Claim C4 counterexample: at `L = 2·DATA_LENGTH − 1 = 16351` the
encrypted output is `24576 + 16 = 24592` bytes, not the `16384 + 16`
the claim's table lists for that length. -/
theorem padding_corner_table_wrong :
    (List.replicate 16351 0).length = 2 * DATA_LENGTH - 1 ∧
    (encryptStream encId 0 (List.replicate 16351 0)).length = 24576 + 16 ∧
    (24576 + 16 : Nat) ≠ 16384 + 16 := by
  refine ⟨by norm_num [DATA_LENGTH, BLOCK_LENGTH], ?_, by norm_num⟩
  rw [encryptStream_length encId encId_length]
  norm_num [get_nonces_required, DATA_LENGTH, BLOCK_LENGTH]

/-! ## Round trip (claim C1) -/

/-- Dropping everything but the last four bytes of a frame whose tail is a
four-byte field returns that field. -/
theorem drop_sub4 (pre tail : List Nat) (ht : tail.length = 4) :
    (pre ++ tail).drop ((pre ++ tail).length - 4) = tail := by
  have h : (pre ++ tail).length - 4 = pre.length := by simp [ht]
  rw [h]
  exact List.drop_left' rfl

theorem take_front3 (x y z : List Nat) : (x ++ y ++ z).take x.length = x := by
  rw [List.append_assoc]
  exact List.take_left' rfl

/-- Core round trip: the decrypting writer applied to the frame stream of
the encrypting reader recovers the plaintext, for any cipher that appends a
16-byte tag and whose decryption inverts its encryption per nonce. -/
theorem decFrames_encFrames (enc : Nat → List Nat → List Nat)
    (dec : Nat → List Nat → Option (List Nat))
    (hlen : ∀ n m, (enc n m).length = m.length + 16)
    (hdec : ∀ n m, dec n (enc n m) = some m) :
    ∀ (L : Nat) (p : List Nat), p.length ≤ L → ∀ n,
      decFrames dec n (encFrames enc n p) = some p := by
  have hDB : DATA_LENGTH + 16 = BLOCK_LENGTH := by norm_num [DATA_LENGTH, BLOCK_LENGTH]
  have hB0 : 0 < BLOCK_LENGTH := by norm_num [BLOCK_LENGTH]
  have h4D : 4 ≤ DATA_LENGTH := by norm_num [DATA_LENGTH, BLOCK_LENGTH]
  have hD32 : 2 * DATA_LENGTH < 256 ^ 4 := by norm_num [DATA_LENGTH, BLOCK_LENGTH]
  intro L
  induction L using Nat.strong_induction_on with
  | _ L ih =>
    intro p hp n
    by_cases hD : DATA_LENGTH ≤ p.length
    · -- `Data` state consumed a full chunk
      have hc0len : (p.take DATA_LENGTH).length = DATA_LENGTH := by
        simp [List.length_take]; omega
      have hhead : (enc n (p.take DATA_LENGTH)).length = BLOCK_LENGTH := by
        rw [hlen, hc0len, hDB]
      rw [encFrames, dif_pos hD]
      by_cases h2 : DATA_LENGTH - 3 ≤ (p.drop DATA_LENGTH).length
      · -- at least two more frames follow: streaming step, then induction
        have hrest := encFrames_length enc hlen (p.drop DATA_LENGTH).length
          (p.drop DATA_LENGTH) (le_refl _) (n + 1)
        have hgt : 2 * BLOCK_LENGTH <
            (enc n (p.take DATA_LENGTH) ++
              encFrames enc (n + 1) (p.drop DATA_LENGTH)).length := by
          rw [List.length_append, hhead, hrest]
          simp only [List.length_drop, DATA_LENGTH, BLOCK_LENGTH] at h2 ⊢
          omega
        rw [decFrames, dif_pos hgt, List.take_left' hhead, List.drop_left' hhead,
          hdec, ih (L - 1) (by omega) (p.drop DATA_LENGTH)
            (by simp only [List.length_drop]; omega) (n + 1)]
        simp [List.take_append_drop]
      · -- exactly one padded frame follows (`pad ≥ 4` for the remainder)
        have hr : (p.drop DATA_LENGTH).length = p.length - DATA_LENGTH := by simp
        rw [encFrames, dif_neg (by omega : ¬ DATA_LENGTH ≤ (p.drop DATA_LENGTH).length)]
        simp only []
        rw [if_neg (by omega : ¬ DATA_LENGTH - (p.drop DATA_LENGTH).length < 4)]
        have hc1len : (p.drop DATA_LENGTH ++
            List.replicate (DATA_LENGTH - (p.drop DATA_LENGTH).length - 4) 0 ++
              beBytes 4 (DATA_LENGTH - (p.drop DATA_LENGTH).length)).length =
            DATA_LENGTH := by
          simp [beBytes_length]; omega
        have htail : (enc (n + 1) (p.drop DATA_LENGTH ++
            List.replicate (DATA_LENGTH - (p.drop DATA_LENGTH).length - 4) 0 ++
              beBytes 4 (DATA_LENGTH - (p.drop DATA_LENGTH).length))).length =
            BLOCK_LENGTH := by rw [hlen, hc1len, hDB]
        have hlen2 : (enc n (p.take DATA_LENGTH) ++
            enc (n + 1) (p.drop DATA_LENGTH ++
              List.replicate (DATA_LENGTH - (p.drop DATA_LENGTH).length - 4) 0 ++
                beBytes 4 (DATA_LENGTH - (p.drop DATA_LENGTH).length))).length =
            2 * BLOCK_LENGTH := by
          rw [List.length_append, hhead, htail]; ring
        rw [decFrames, dif_neg (by rw [hlen2]; omega),
          if_neg (by rw [hlen2]; omega), if_pos hlen2,
          List.take_left' hhead, List.drop_left' hhead, hdec, hdec]
        simp only []
        rw [drop_sub4 _ _ (beBytes_length 4 _),
          beVal_beBytes 4 _ (lt_of_le_of_lt (by omega) hD32)]
        by_cases hz : (p.drop DATA_LENGTH).length = 0
        · -- remainder was empty: the whole second frame is padding
          rw [if_pos (by omega)]
          rw [if_pos (by omega)]
          have he1 : (p.take DATA_LENGTH).length -
              (DATA_LENGTH - (p.drop DATA_LENGTH).length - DATA_LENGTH) =
              (p.take DATA_LENGTH).length := by omega
          rw [he1, List.take_length]
          have hpD : p.length = DATA_LENGTH := by
            simp only [List.length_drop] at hz; omega
          rw [show DATA_LENGTH = p.length from hpD.symm, List.take_length]
        · -- remainder nonempty: emit first frame, un-pad the second
          rw [if_neg (by omega)]
          rw [if_pos (by rw [hc1len]; omega)]
          have he2 : (p.drop DATA_LENGTH ++
              List.replicate (DATA_LENGTH - (p.drop DATA_LENGTH).length - 4) 0 ++
                beBytes 4 (DATA_LENGTH - (p.drop DATA_LENGTH).length)).length -
              (DATA_LENGTH - (p.drop DATA_LENGTH).length) =
              (p.drop DATA_LENGTH).length := by rw [hc1len]; omega
          rw [he2, take_front3, List.take_append_drop]
    · -- `Pad` state reached with a short remainder
      rw [encFrames, dif_neg hD]
      simp only []
      by_cases hpad : DATA_LENGTH - p.length < 4
      · -- `pad < 4`: zero-pad this frame, then a full padding frame
        rw [if_pos hpad]
        have halen : (p ++ List.replicate (DATA_LENGTH - p.length) 0).length =
            DATA_LENGTH := by simp; omega
        have hblen : (List.replicate (DATA_LENGTH - 4) 0 ++
            beBytes 4 (DATA_LENGTH + (DATA_LENGTH - p.length))).length =
            DATA_LENGTH := by simp [beBytes_length]; omega
        have h1 : (enc n (p ++ List.replicate (DATA_LENGTH - p.length) 0)).length =
            BLOCK_LENGTH := by rw [hlen, halen, hDB]
        have h2 : (enc (n + 1) (List.replicate (DATA_LENGTH - 4) 0 ++
            beBytes 4 (DATA_LENGTH + (DATA_LENGTH - p.length)))).length =
            BLOCK_LENGTH := by rw [hlen, hblen, hDB]
        have hlen2 : (enc n (p ++ List.replicate (DATA_LENGTH - p.length) 0) ++
            enc (n + 1) (List.replicate (DATA_LENGTH - 4) 0 ++
              beBytes 4 (DATA_LENGTH + (DATA_LENGTH - p.length)))).length =
            2 * BLOCK_LENGTH := by rw [List.length_append, h1, h2]; ring
        rw [decFrames, dif_neg (by rw [hlen2]; omega),
          if_neg (by rw [hlen2]; omega), if_pos hlen2,
          List.take_left' h1, List.drop_left' h1, hdec, hdec]
        simp only []
        rw [drop_sub4 _ _ (beBytes_length 4 _),
          beVal_beBytes 4 _ (lt_of_le_of_lt (by omega) hD32)]
        rw [if_pos (by omega)]
        rw [if_pos (by rw [halen]; omega)]
        have he : (p ++ List.replicate (DATA_LENGTH - p.length) 0).length -
            (DATA_LENGTH + (DATA_LENGTH - p.length) - DATA_LENGTH) = p.length := by
          rw [halen]; omega
        rw [he, List.take_left' rfl]
      · -- `pad ≥ 4`: a single final frame carries all the padding
        rw [if_neg hpad]
        have hmlen : (p ++ List.replicate (DATA_LENGTH - p.length - 4) 0 ++
            beBytes 4 (DATA_LENGTH - p.length)).length = DATA_LENGTH := by
          simp [beBytes_length]; omega
        have h1 : (enc n (p ++ List.replicate (DATA_LENGTH - p.length - 4) 0 ++
            beBytes 4 (DATA_LENGTH - p.length))).length = BLOCK_LENGTH := by
          rw [hlen, hmlen, hDB]
        rw [decFrames, dif_neg (by rw [h1]; omega), if_pos h1, hdec]
        simp only []
        rw [drop_sub4 _ _ (beBytes_length 4 _),
          beVal_beBytes 4 _ (lt_of_le_of_lt (by omega) hD32)]
        rw [if_pos (by rw [hmlen]; omega)]
        have he : (p ++ List.replicate (DATA_LENGTH - p.length - 4) 0 ++
            beBytes 4 (DATA_LENGTH - p.length)).length -
            (DATA_LENGTH - p.length) = p.length := by rw [hmlen]; omega
        rw [he, take_front3]

/-- Claim C1: for every plaintext (of any length `L ≥ 0`), every start
nonce (a `u128`, i.e. `< 2^128`), and every cipher key — abstracted as an
encryption/decryption pair where encryption appends the 16-byte tag and
decryption with the same key and nonce inverts it — feeding the complete
byte stream produced by the encrypting reader (16-byte header followed by
the ciphertext frames) into the decrypting writer, followed by exactly one
zero-length write, makes the writer emit exactly the original plaintext. -/
theorem encrypt_decrypt_round_trip (enc : Nat → List Nat → List Nat)
    (dec : Nat → List Nat → Option (List Nat))
    (hlen : ∀ n m, (enc n m).length = m.length + 16)
    (hdec : ∀ n m, dec n (enc n m) = some m)
    (s : Nat) (hs : s < 2 ^ 128) (p : List Nat) :
    decryptStream dec (encryptStream enc s p) = some p := by
  have h16 : (beBytes 16 s).length = 16 := beBytes_length 16 s
  rw [encryptStream, decryptStream,
    if_pos (by rw [List.length_append, h16]; omega),
    List.take_left' h16, List.drop_left' h16,
    beVal_beBytes 16 s (by norm_num; exact hs)]
  exact decFrames_encFrames enc dec hlen hdec p.length p (le_refl _) s

/-- Claim C1 witness: the concrete cipher, start nonce 0, empty plaintext. -/
theorem encrypt_decrypt_round_trip_witness :
    (∀ n m, (encId n m).length = m.length + 16) ∧
    (∀ n m, decId n (encId n m) = some m) ∧
    (0 : Nat) < 2 ^ 128 ∧
    decryptStream decId (encryptStream encId 0 []) = some [] :=
  ⟨encId_length, decId_encId, by norm_num,
    encrypt_decrypt_round_trip encId decId encId_length decId_encId 0
      (by norm_num) []⟩

/-! ## Byte-string comparison is a strict order (for the manifest claims) -/

theorem bytesCmp_eq_iff : ∀ a b : List Nat, bytesCmp a b = .eq ↔ a = b := by
  intro a
  induction a with
  | nil => intro b; cases b <;> simp [bytesCmp]
  | cons x xs ih =>
    intro b
    cases b with
    | nil => simp [bytesCmp]
    | cons y ys =>
      simp only [bytesCmp]
      split_ifs with h1 h2
      · simp only [List.cons.injEq]
        constructor
        · intro h; simp at h
        · rintro ⟨rfl, -⟩; omega
      · simp only [List.cons.injEq]
        constructor
        · intro h; simp at h
        · rintro ⟨rfl, -⟩; omega
      · have hxy : x = y := by omega
        subst hxy
        simp [ih]

theorem bytesCmp_gt_iff : ∀ a b : List Nat, bytesCmp a b = .gt ↔ bytesCmp b a = .lt := by
  intro a
  induction a with
  | nil => intro b; cases b <;> simp [bytesCmp]
  | cons x xs ih =>
    intro b
    cases b with
    | nil => simp [bytesCmp]
    | cons y ys =>
      simp only [bytesCmp]
      split_ifs <;> first | omega | simp [ih]

theorem bytesCmp_lt_trans : ∀ a b c : List Nat,
    bytesCmp a b = .lt → bytesCmp b c = .lt → bytesCmp a c = .lt := by
  intro a
  induction a with
  | nil =>
    intro b c h1 h2
    cases b with
    | nil => simp [bytesCmp] at h1
    | cons y ys =>
      cases c with
      | nil => simp [bytesCmp] at h2
      | cons z zs => simp [bytesCmp]
  | cons x xs ih =>
    intro b c h1 h2
    cases b with
    | nil => simp [bytesCmp] at h1
    | cons y ys =>
      cases c with
      | nil => simp [bytesCmp] at h2
      | cons z zs =>
        simp only [bytesCmp] at h1 h2 ⊢
        split_ifs at h1 h2 ⊢ <;>
          first
            | rfl
            | omega
            | (exact ih ys zs h1 h2)

/-! ## Binary-search correctness on path-sorted manifests -/

/-- Invariant-carrying specification of `binarySearchGo` with the path
comparator on a sorted entry list: `Ok n` finds an entry whose path is the
target; `Err n` is a correct insertion point — everything before it is
strictly below the target, everything from it on is strictly above. -/
theorem binarySearchGo_spec (t : List Nat) (xs : List FileEntry)
    (hs : ∀ (i j : Nat) (hi : i < xs.length) (hj : j < xs.length), i < j →
      bytesCmp xs[i].path xs[j].path = .lt) :
    ∀ (gas left right : Nat), right - left ≤ gas → left ≤ right →
      right ≤ xs.length →
      (∀ (i : Nat) (hi : i < xs.length), i < left → bytesCmp xs[i].path t = .lt) →
      (∀ (i : Nat) (hi : i < xs.length), right ≤ i → bytesCmp t xs[i].path = .lt) →
      (match binarySearchGo (fun e => bytesCmp e.path t) xs left right with
       | .inl n => ∃ hn : n < xs.length, xs[n].path = t
       | .inr n => left ≤ n ∧ n ≤ right ∧
           (∀ (i : Nat) (hi : i < xs.length), i < n → bytesCmp xs[i].path t = .lt) ∧
           (∀ (i : Nat) (hi : i < xs.length), n ≤ i → bytesCmp t xs[i].path = .lt)) := by
  intro gas
  induction gas with
  | zero =>
    intro left right hgas hlr hrlen Hlt Hgt
    rw [binarySearchGo, dif_neg (by omega)]
    exact ⟨le_refl _, by omega, Hlt, fun i hi hni => Hgt i hi (by omega)⟩
  | succ gas ih =>
    intro left right hgas hlr hrlen Hlt Hgt
    rw [binarySearchGo]
    by_cases h : left < right
    · rw [dif_pos h]
      have hmidlt : left + (right - left) / 2 < right := by
        have := Nat.div_lt_self (show 0 < right - left by omega) (by norm_num : (1:Nat) < 2)
        omega
      have hmidlen : left + (right - left) / 2 < xs.length := by omega
      simp only []
      rw [List.getD_eq_getElem xs defaultEntry hmidlen]
      cases hcmp : bytesCmp (xs[left + (right - left) / 2].path) t with
      | lt =>
        have hlt' : ∀ (i : Nat) (hi : i < xs.length),
            i < left + (right - left) / 2 + 1 → bytesCmp xs[i].path t = .lt := by
          intro i hi hlti
          rcases Nat.lt_or_ge i (left + (right - left) / 2) with hcase | hcase
          · exact bytesCmp_lt_trans _ _ _ (hs i _ hi hmidlen hcase) hcmp
          · have hieq : i = left + (right - left) / 2 := by omega
            subst hieq
            exact hcmp
        have hrec := ih (left + (right - left) / 2 + 1) right (by omega) (by omega)
          hrlen hlt' Hgt
        rcases hb : binarySearchGo (fun e => bytesCmp e.path t) xs
            (left + (right - left) / 2 + 1) right with n | n
        · rw [hb] at hrec
          simp only [hb]
          exact hrec
        · rw [hb] at hrec
          simp only [hb]
          exact ⟨by omega, hrec.2.1, hrec.2.2⟩
      | gt =>
        have hgt' : ∀ (i : Nat) (hi : i < xs.length),
            left + (right - left) / 2 ≤ i → bytesCmp t xs[i].path = .lt := by
          intro i hi hge
          rcases Nat.lt_or_ge (left + (right - left) / 2) i with hcase | hcase
          · exact bytesCmp_lt_trans _ _ _ ((bytesCmp_gt_iff _ _).1 hcmp)
              (hs _ i hmidlen hi hcase)
          · have hieq : i = left + (right - left) / 2 := by omega
            subst hieq
            exact (bytesCmp_gt_iff _ _).1 hcmp
        have hrec := ih left (left + (right - left) / 2) (by omega) (by omega)
          (by omega) Hlt hgt'
        rcases hb : binarySearchGo (fun e => bytesCmp e.path t) xs left
            (left + (right - left) / 2) with n | n
        · rw [hb] at hrec
          simp only [hb]
          exact hrec
        · rw [hb] at hrec
          simp only [hb]
          have h21 := hrec.2.1
          exact ⟨hrec.1, by omega, hrec.2.2⟩
      | eq =>
        exact ⟨hmidlen, (bytesCmp_eq_iff _ _).1 hcmp⟩
    · rw [dif_neg h]
      exact ⟨le_refl _, by omega, Hlt, fun i hi hni => Hgt i hi (by omega)⟩

/-- `binary_search_by` with the path comparator on a sorted manifest. -/
theorem binary_search_by_path_spec (t : List Nat) (xs : List FileEntry)
    (hsorted : entriesSorted xs) :
    (match binary_search_by (fun e => bytesCmp e.path t) xs with
     | .inl n => ∃ hn : n < xs.length, xs[n].path = t
     | .inr n => n ≤ xs.length ∧
         (∀ (i : Nat) (hi : i < xs.length), i < n → bytesCmp xs[i].path t = .lt) ∧
         (∀ (i : Nat) (hi : i < xs.length), n ≤ i → bytesCmp t xs[i].path = .lt)) := by
  have hs := List.pairwise_iff_getElem.1 hsorted
  have hmain := binarySearchGo_spec t xs hs xs.length 0 xs.length (by omega)
    (by omega) (le_refl _)
    (fun i hi hlt => absurd hlt (Nat.not_lt_zero i))
    (fun i hi hge => absurd hi (by omega))
  rw [binary_search_by]
  rcases hb : binarySearchGo (fun e => bytesCmp e.path t) xs 0 xs.length with n | n
  · rw [hb] at hmain
    exact hmain
  · rw [hb] at hmain
    exact ⟨hmain.2.1, hmain.2.2⟩

/-! ## Linear-scan agreement -/

theorem find?_eq_some_getElem (t : List Nat) :
    ∀ (l : List FileEntry) (n : Nat) (hn : n < l.length),
      (∀ (i : Nat) (hi : i < l.length), i < n → l[i].path ≠ t) →
      l[n].path = t →
      l.find? (fun e => decide (e.path = t)) = some l[n] := by
  intro l
  induction l with
  | nil => intro n hn; exact absurd hn (by simp)
  | cons a l ih =>
    intro n hn hbefore hhit
    cases n with
    | zero =>
      have hhit' : a.path = t := by simpa using hhit
      rw [List.find?_cons_of_pos _ (by simp [hhit'])]
      simp
    | succ m =>
      have hne : a.path ≠ t := by
        have := hbefore 0 (by simp) (by omega)
        simpa using this
      rw [List.find?_cons_of_neg _ (by simpa using hne)]
      have hm : m < l.length := by simpa using hn
      have := ih m hm
        (fun i hi hlt => by
          have := hbefore (i + 1) (by simpa using hi) (by omega)
          simpa using this)
        (by simpa using hhit)
      rw [this]
      simp

theorem find?_eq_none_entries (t : List Nat) (l : List FileEntry)
    (h : ∀ e ∈ l, e.path ≠ t) :
    l.find? (fun e => decide (e.path = t)) = none :=
  List.find?_eq_none.mpr (by intro e he; simpa using h e he)

/-- `get_from_path` on a sorted manifest returns exactly what a linear scan
for the path returns. -/
theorem get_from_path_linear (m : FileManifest) (hsorted : entriesSorted m.files)
    (path : List Nat) :
    get_from_path m path = linearLookup m.files path := by
  have hmain := binary_search_by_path_spec path m.files hsorted
  have hsg := List.pairwise_iff_getElem.1 hsorted
  rw [get_from_path, linearLookup]
  rcases hb : binary_search_by (fun e => bytesCmp e.path path) m.files with n | n
  · rw [hb] at hmain
    obtain ⟨hn, hp⟩ := hmain
    have hfind : m.files.find? (fun e => decide (e.path = path)) =
        some m.files[n] := by
      apply find?_eq_some_getElem path m.files n hn _ hp
      intro i hi hlt
      have := hsg i n hi hn hlt
      rw [hp] at this
      intro hcontra
      rw [hcontra, (bytesCmp_eq_iff path path).2 rfl] at this
      simp at this
    rw [hfind]
    simp [List.getElem?_eq_getElem hn]
  · rw [hb] at hmain
    obtain ⟨hlen, hbefore, hafter⟩ := hmain
    have hfind : m.files.find? (fun e => decide (e.path = path)) = none := by
      apply find?_eq_none_entries
      intro e he
      obtain ⟨i, hi, rfl⟩ := List.mem_iff_getElem.1 he
      intro hcontra
      rcases Nat.lt_or_ge i n with hcase | hcase
      · have := hbefore i hi hcase
        rw [(bytesCmp_eq_iff _ _).2 hcontra] at this
        simp at this
      · have := hafter i hi hcase
        rw [hcontra, (bytesCmp_eq_iff path path).2 rfl] at this
        simp at this
    rw [hfind]

/-! ## Sortedness preservation -/

theorem insertIdx_eq_take_drop (e : FileEntry) :
    ∀ (l : List FileEntry) (n : Nat), n ≤ l.length →
      l.insertIdx n e = l.take n ++ e :: l.drop n := by
  intro l
  induction l with
  | nil =>
    intro n hn
    have : n = 0 := by simpa using hn
    subst this
    rfl
  | cons a l ih =>
    intro n hn
    cases n with
    | zero => rfl
    | succ m =>
      have hm : m ≤ l.length := by simpa using hn
      simp [List.insertIdx_succ_cons, ih m hm]

theorem entriesSorted_eraseIdx (l : List FileEntry) (n : Nat)
    (hs : entriesSorted l) : entriesSorted (l.eraseIdx n) :=
  hs.sublist (List.eraseIdx_sublist l n)

theorem entriesSorted_insertIdx (l : List FileEntry) (e : FileEntry) (n : Nat)
    (hs : entriesSorted l) (hn : n ≤ l.length)
    (hbefore : ∀ (i : Nat) (hi : i < l.length), i < n →
      bytesCmp l[i].path e.path = .lt)
    (hafter : ∀ (i : Nat) (hi : i < l.length), n ≤ i →
      bytesCmp e.path l[i].path = .lt) :
    entriesSorted (l.insertIdx n e) := by
  rw [insertIdx_eq_take_drop e l n hn]
  rw [entriesSorted] at hs ⊢
  rw [List.pairwise_append]
  refine ⟨hs.sublist (List.take_sublist n l), ?_, ?_⟩
  · rw [List.pairwise_cons]
    refine ⟨?_, hs.sublist (List.drop_sublist n l)⟩
    intro b hb
    obtain ⟨j, hj, rfl⟩ := List.mem_iff_getElem.1 hb
    rw [List.getElem_drop]
    exact hafter (n + j) (by simp at hj; omega) (by omega)
  · intro a ha b hb
    obtain ⟨i, hi, rfl⟩ := List.mem_iff_getElem.1 ha
    have hilen : i < l.length := by simp at hi; omega
    have hiltn : i < n := by simp at hi; omega
    rw [List.getElem_take]
    rcases List.mem_cons.1 hb with rfl | hb'
    · exact hbefore i hilen hiltn
    · obtain ⟨j, hj, rfl⟩ := List.mem_iff_getElem.1 hb'
      rw [List.getElem_drop]
      have hsg := List.pairwise_iff_getElem.1 hs
      exact hsg i (n + j) hilen (by simp at hj; omega) (by omega)

theorem applyOp_sorted (m : FileManifest) (op : ManifestOp)
    (hs : entriesSorted m.files) : entriesSorted (applyOp m op).files := by
  cases op with
  | getOrCreate fresh path ts =>
    have hmain := binary_search_by_path_spec path m.files hs
    simp only [applyOp, get_mask]
    rcases hb : binary_search_by (fun e => bytesCmp e.path path) m.files with n | n
    · simp only []
      exact hs
    · rw [hb] at hmain
      obtain ⟨hn, hbefore, hafter⟩ := hmain
      simp only []
      exact entriesSorted_insertIdx m.files _ n hs hn hbefore hafter
  | removeByPath path =>
    simp only [applyOp, remove_path]
    rcases hb : binary_search_by (fun e => bytesCmp e.path path) m.files with n | n
    · simp only []
      exact entriesSorted_eraseIdx m.files n hs
    · simp only []
      exact hs

/-- Claim C8: starting from a manifest whose entries are sorted by path
with unique keys (strict sortedness), after any sequence of `get_mask`
(get-or-create) and `remove_path` operations the entries remain strictly
sorted by path, and `get_from_path` returns exactly what a linear scan for
that path returns. -/
theorem manifest_ops_sorted_lookup (m : FileManifest)
    (hs : entriesSorted m.files) (ops : List ManifestOp) :
    entriesSorted (applyOps m ops).files ∧
    ∀ path, get_from_path (applyOps m ops) path =
      linearLookup (applyOps m ops).files path := by
  have hsorted : entriesSorted (applyOps m ops).files := by
    induction ops generalizing m with
    | nil => exact hs
    | cons op ops ih => exact ih (applyOp m op) (applyOp_sorted m op hs)
  exact ⟨hsorted, fun path => get_from_path_linear _ hsorted path⟩

/-- Claim C8 witness: a concrete run — insert path `"a"` into the empty
(sorted) manifest, then remove it. -/
theorem manifest_ops_sorted_lookup_witness :
    entriesSorted (FileManifest.mk true []).files ∧
    (entriesSorted (applyOps ⟨true, []⟩
        [.getOrCreate [120] [97] 1, .removeByPath [97]]).files ∧
      ∀ path, get_from_path (applyOps ⟨true, []⟩
          [.getOrCreate [120] [97] 1, .removeByPath [97]]) path =
        linearLookup (applyOps ⟨true, []⟩
          [.getOrCreate [120] [97] 1, .removeByPath [97]]).files path) :=
  ⟨by simp [entriesSorted],
    manifest_ops_sorted_lookup ⟨true, []⟩ (by simp [entriesSorted])
      [.getOrCreate [120] [97] 1, .removeByPath [97]]⟩

/-- Claim C7 (amended): on a (path-sorted) manifest, if an entry with the
path exists, `get_mask` returns the stored timestamp and remote name and
leaves the manifest unchanged; if absent, it inserts one new entry carrying
the supplied timestamp whose remote name is, when `mask` is true, the
string freshly sampled from the RNG (`fresh`; the external `rand` crate
supplies `MASK_SIZE = 64` alphanumeric characters), and, when `mask` is
false on POSIX, the local path with its **first character** removed —
which is the leading `'/'` for absolute paths, but strips the first
character of any other path as well. -/
theorem get_mask_spec (m : FileManifest) (hsorted : entriesSorted m.files)
    (path : List Nat) (ts : Nat) (fresh : List Nat) :
    (∀ t mk, linearLookup m.files path = some (t, mk) →
      get_mask fresh m path ts = ((t, mk), m)) ∧
    (linearLookup m.files path = none →
      (get_mask fresh m path ts).1 =
        (ts, if m.mask then fresh else path.drop 1) ∧
      (get_mask fresh m path ts).2.mask = m.mask ∧
      ∃ n, n ≤ m.files.length ∧
        (get_mask fresh m path ts).2.files =
          m.files.insertIdx n ⟨path, ts, if m.mask then fresh else path.drop 1⟩) := by
  have hlin := get_from_path_linear m hsorted path
  have hmain := binary_search_by_path_spec path m.files hsorted
  rcases hb : binary_search_by (fun e => bytesCmp e.path path) m.files with n | n
  · rw [hb] at hmain
    obtain ⟨hn, hp⟩ := hmain
    have hsome : linearLookup m.files path =
        some (m.files[n].timestamp, m.files[n].mask) := by
      rw [← hlin, get_from_path, hb]
      simp [List.getElem?_eq_getElem hn]
    constructor
    · intro t mk hsome2
      rw [hsome] at hsome2
      injection hsome2 with h
      injection h with h1 h2
      subst h1
      subst h2
      rw [get_mask, hb]
      simp [List.getElem?_eq_getElem hn]
    · intro hnone
      rw [hsome] at hnone
      exact absurd hnone (by simp)
  · rw [hb] at hmain
    obtain ⟨hn, -, -⟩ := hmain
    have hnone : linearLookup m.files path = none := by
      rw [← hlin, get_from_path, hb]
    constructor
    · intro t mk h
      rw [hnone] at h
      exact absurd h (by simp)
    · intro _
      refine ⟨?_, ?_, n, hn, ?_⟩ <;> simp [get_mask, hb]

/-- Claim C7 witness: masking on, empty manifest, path `"a"`. -/
theorem get_mask_spec_witness :
    entriesSorted (FileManifest.mk true []).files ∧
    ((∀ t mk, linearLookup (FileManifest.mk true []).files [97] = some (t, mk) →
      get_mask [120] ⟨true, []⟩ [97] 5 = ((t, mk), ⟨true, []⟩)) ∧
    (linearLookup (FileManifest.mk true []).files [97] = none →
      (get_mask [120] ⟨true, []⟩ [97] 5).1 =
        (5, if (FileManifest.mk true []).mask then [120] else List.drop 1 [97]) ∧
      (get_mask [120] ⟨true, []⟩ [97] 5).2.mask = (FileManifest.mk true []).mask ∧
      ∃ n, n ≤ (FileManifest.mk true []).files.length ∧
        (get_mask [120] ⟨true, []⟩ [97] 5).2.files =
          (FileManifest.mk true []).files.insertIdx n
            ⟨[97], 5, if (FileManifest.mk true []).mask then [120]
                      else List.drop 1 [97]⟩)) :=
  ⟨by simp [entriesSorted],
    get_mask_spec ⟨true, []⟩ (by simp [entriesSorted]) [97] 5 [120]⟩

/-- Claim C7 counterexample: with masking off (POSIX branch), creating an
entry for the relative path `"file.txt"` — exactly the repository's own
`test_nomask` test input — produces the remote name `"ile.txt"`: the code
strips the first character unconditionally (`path.as_ref()[1..]`), while
the claim says only a leading `'/'` is stripped and all other characters
are left unchanged, which would give `"file.txt"`. -/
theorem get_mask_strips_first_char :
    (get_mask [] ⟨false, []⟩ [102, 105, 108, 101, 46, 116, 120, 116] 4908).1.2 =
      [105, 108, 101, 46, 116, 120, 116] ∧
    ([105, 108, 101, 46, 116, 120, 116] : List Nat) ≠
      [102, 105, 108, 101, 46, 116, 120, 116] := by
  constructor
  · have hbs : binary_search_by
        (fun e => bytesCmp e.path [102, 105, 108, 101, 46, 116, 120, 116])
        ([] : List FileEntry) = .inr 0 := by
      rw [binary_search_by, binarySearchGo]
      norm_num
    rw [get_mask, hbs]
    simp
  · decide

end RetainRs
